import Mathlib

/-!
Verification of the DSA linear data-structure library.

Shallow embedding of the C++ sources:
  src/DataStructures/cpp/linear/arrays/CircularArray.cpp
  src/DataStructures/cpp/linear/Arrays/DynamicArray.cpp
  src/DataStructures/CPP/Linear/LinkedLists/SinglyLinkedList.cpp
  src/DataStructures/CPP/Linear/LinkedLists/DoublyLinkedList.cpp

Machine integers: size_type is std::size_t (64-bit unsigned) and
difference_type is std::ptrdiff_t (64-bit signed).  Where the C++ code mixes
the two in arithmetic the conversion is modelled explicitly with
emod (2 ^ 64); everywhere else indices stay Nat.
-/

namespace DSA

/-! ## Definitions -/

/-- Error conditions thrown by the circular array (std::runtime_error and
std::out_of_range in the source). -/
inductive CAErr where
  | capacityExceeded
  | underflow
  | outOfRange
deriving DecidableEq

/-- State of a `ds::CircularArray<T>`.  The buffer is the raw allocation of
length `capacity`; a slot holds `none` when no live object is constructed in
it (construct writes `some v`, destroy writes `none`, so reading `none`
through the window models a read of destroyed storage, which is undefined
behaviour in the source). -/
structure CircularArray (α : Type) where
  buffer : List (Option α)
  head : Nat
  tail : Nat
  capacity : Nat
  size : Nat
deriving DecidableEq

namespace CircularArray

/-- CircularArray::normalize_index.  The parameter is difference_type
(signed); `index % capacity_` mixes it with the unsigned size_type
`capacity_`, so C++ first converts `index` to size_t (value mod 2^64) and
then takes the unsigned remainder.  The source adds `capacity_` at most once:

    if (index < 0) { index += capacity_; }
    return index % capacity_;
-/
def normalize_index (capacity : Nat) (index : Int) : Nat :=
  let index := if index < 0 then index + (capacity : Int) else index
  (index % (2 ^ 64 : Int)).toNat % capacity

/-- CircularArray(capacity) constructor: allocates `capacity` slots, no
element constructed, `head_ = tail_ = size_ = 0`. -/
def new (α : Type) (capacity : Nat) : CircularArray α :=
  ⟨List.replicate capacity none, 0, 0, capacity, 0⟩

/-- CircularArray(count, value) fill constructor: `head_ = 0`,
`tail_ = count`, `capacity_ = count`, `size_ = count`, every slot
constructed with `value`.  Note the source stores `tail_ = count`
un-normalized. -/
def fill (count : Nat) (v : α) : CircularArray α :=
  ⟨List.replicate count (some v), 0, count, count, count⟩

/-- CircularArray(const CircularArray&) copy constructor: fresh buffer of
`other.capacity_`, `head_ = 0`, `tail_ = other.size_`; copy_elements walks
the source window and writes it to the front of the new buffer. -/
def copyOf (other : CircularArray α) : CircularArray α :=
  ⟨(List.range other.capacity).map (fun i =>
      if i < other.size then other.buffer.getD ((other.head + i) % other.capacity) none
      else none),
   0, other.size, other.capacity, other.size⟩

/-- CircularArray::empty. -/
def empty (c : CircularArray α) : Bool :=
  c.size == 0

/-- CircularArray::full. -/
def full (c : CircularArray α) : Bool :=
  c.size == c.capacity

/-- CircularArray::push_front: throws when full, otherwise decrements
`head_` (normalized) and constructs there.  The C++ expression `head_ - 1`
wraps in size_t and is converted back to difference_type; for `head_ = 0`
this reaches normalize_index as `-1`. -/
def push_front (c : CircularArray α) (v : α) : Except CAErr (CircularArray α) :=
  if c.full then Except.error CAErr.capacityExceeded
  else
    let h := normalize_index c.capacity ((c.head : Int) - 1)
    Except.ok { c with buffer := c.buffer.set h (some v), head := h, size := c.size + 1 }

/-- CircularArray::push_back: throws when full, otherwise constructs at
`tail_` then increments `tail_` (normalized). -/
def push_back (c : CircularArray α) (v : α) : Except CAErr (CircularArray α) :=
  if c.full then Except.error CAErr.capacityExceeded
  else
    Except.ok { c with buffer := c.buffer.set c.tail (some v),
                       tail := normalize_index c.capacity ((c.tail : Int) + 1),
                       size := c.size + 1 }

/-- CircularArray::pop_front: throws when empty, otherwise destroys at
`head_` then increments `head_` (normalized). -/
def pop_front (c : CircularArray α) : Except CAErr (CircularArray α) :=
  if c.empty then Except.error CAErr.underflow
  else
    Except.ok { c with buffer := c.buffer.set c.head none,
                       head := normalize_index c.capacity ((c.head : Int) + 1),
                       size := c.size - 1 }

/-- CircularArray::pop_back: throws when empty, otherwise decrements
`tail_` (normalized) then destroys there. -/
def pop_back (c : CircularArray α) : Except CAErr (CircularArray α) :=
  if c.empty then Except.error CAErr.underflow
  else
    let t := normalize_index c.capacity ((c.tail : Int) - 1)
    Except.ok { c with buffer := c.buffer.set t none, tail := t, size := c.size - 1 }

/-- The rotation amount actually applied by CircularArray::rotate:
`n = n % size` with C++ truncated signed remainder, then `if (n < 0) n += size`. -/
def rotHelper (n : Int) (size : Nat) : Int :=
  let m := Int.tmod n (size : Int)
  if m < 0 then m + (size : Int) else m

/-- rotHelper as a Nat. -/
def rotAmount (n : Int) (size : Nat) : Nat :=
  (rotHelper n size).toNat

/-- CircularArray::rotate: early-returns when empty, otherwise adds the
normalized amount to both `head_` and `tail_`; the buffer is never
touched. -/
def rotate (c : CircularArray α) (n : Int) : CircularArray α :=
  if c.size = 0 then c
  else
    let k := rotHelper n c.size
    { c with head := normalize_index c.capacity ((c.head : Int) + k),
             tail := normalize_index c.capacity ((c.tail : Int) + k) }

/-- CircularArray::at: throws out_of_range for `pos >= size_`, otherwise
reads `buffer_[normalize_index(head_ + pos)]`.  The inner Option is `none`
when the slot holds no live object (a UB read in the source). -/
def atPos (c : CircularArray α) (pos : Nat) : Except CAErr (Option α) :=
  if c.size ≤ pos then Except.error CAErr.outOfRange
  else Except.ok (c.buffer.getD (normalize_index c.capacity ((c.head + pos : Nat) : Int)) none)

/-- The logical sequence of the container: the reads at(0), ..., at(size-1). -/
def toSeq (c : CircularArray α) : List (Option α) :=
  (List.range c.size).map (fun i =>
    c.buffer.getD (normalize_index c.capacity ((c.head + i : Nat) : Int)) none)

/-- Position component of CircularArray::begin (the iterator stores
`(buffer, position, capacity)` and begin uses `head_`). -/
def beginPosition (c : CircularArray α) : Nat :=
  c.head

/-- Position component of CircularArray::end (positioned at `tail_`). -/
def endPosition (c : CircularArray α) : Nat :=
  c.tail

/-- One pass of `for (it = begin; it != end; ++it)` collecting the slots the
iterator dereferences; operator++ advances `position_ = (position_ + 1) %
capacity_`.  Fuel bounds the loop (the loop itself has no bound). -/
def iterLoop (buffer : List (Option α)) (capacity endPos : Nat) : Nat → Nat → List (Option α)
  | _pos, 0 => []
  | pos, fuel + 1 =>
    if pos = endPos then []
    else buffer.getD pos none :: iterLoop buffer capacity endPos ((pos + 1) % capacity) fuel

/-- Iterating the container from begin() to end(). -/
def iterTraverse (c : CircularArray α) : List (Option α) :=
  iterLoop c.buffer c.capacity c.tail c.head (c.capacity + 1)

/-- Well-formedness of a circular array state: buffer of the allocated
length, size within capacity, capacity in the range a real allocation can
have, head inside the buffer, and tail at the next-write slot. -/
def Wf (c : CircularArray α) : Prop :=
  c.buffer.length = c.capacity ∧
  c.size ≤ c.capacity ∧
  c.capacity < 2 ^ 63 ∧
  (c.head < c.capacity ∨ c.capacity = 0) ∧
  c.tail = (c.head + c.size) % c.capacity

/-- States reachable from the capacity constructor through the mutating
operations (successful pushes and pops, and rotate).  `2 ^ 63` bounds the
capacity a real allocation can have (ptrdiff_t must cover it). -/
inductive Reachable : CircularArray α → Prop where
  | new (capacity : Nat) (h : capacity < 2 ^ 63) : Reachable (CircularArray.new α capacity)
  | push_front {c c2 : CircularArray α} {v : α} :
      Reachable c → c.push_front v = Except.ok c2 → Reachable c2
  | push_back {c c2 : CircularArray α} {v : α} :
      Reachable c → c.push_back v = Except.ok c2 → Reachable c2
  | pop_front {c c2 : CircularArray α} :
      Reachable c → c.pop_front = Except.ok c2 → Reachable c2
  | pop_back {c c2 : CircularArray α} :
      Reachable c → c.pop_back = Except.ok c2 → Reachable c2
  | rotate {c : CircularArray α} (n : Int) :
      Reachable c → Reachable (c.rotate n)

end CircularArray

/-- Error conditions of the dynamic array (the source throws
std::out_of_range from at(); pop_back has no failure path). -/
inductive DAErr where
  | underflow
  | indexOutOfRange
deriving DecidableEq

/-- State of a `ds::DynamicArray<T>`: `data` is the list of live elements
(the constructed prefix `[0, size_)` of the allocation), `capacity` the
allocation size. -/
structure DynamicArray (α : Type) where
  data : List α
  capacity : Nat
deriving DecidableEq

namespace DynamicArray

/-- Round num / 2^drop to an integer with round-to-nearest, ties-to-even:
the IEEE-754 default rounding of the binary32 arithmetic appearing in
DynamicArray::calculate_growth. -/
def roundNearestEven (num drop : Nat) : Nat :=
  if drop = 0 then num
  else
    let q := num / 2 ^ drop
    let r := num % 2 ^ drop
    let half := 2 ^ (drop - 1)
    if half < r then q + 1
    else if r < half then q
    else if q % 2 = 0 then q else q + 1

/-- Value of the C++ conversion `(float)n` of a size_type n: exact while n
fits in 24 significand bits, otherwise rounded to the nearest binary32
(ties to even - the rounding mainstream implementations use; the standard
leaves the direction implementation-defined for inexact integer-to-float
conversions).  The result is always an integer. -/
def toFloat32 (n : Nat) : Nat :=
  if n = 0 then 0
  else
    let L := Nat.log2 n + 1
    if L ≤ 24 then n else roundNearestEven n (L - 24) * 2 ^ (L - 24)

/-- The source expression `static_cast<size_type>(capacity_ * GROWTH_FACTOR)`
with `static constexpr float GROWTH_FACTOR = 1.5f`: convert capacity to
float, multiply by 1.5f as a correctly rounded binary32 multiplication,
truncate toward zero.  The exact product is 3 * (float)capacity divided by
2, a dyadic number with one fractional bit; when it has at most 24
significant bits it is the exact float result and truncation floors it,
otherwise it is rounded to 24 significant bits (ties to even), giving an
integer. -/
def truncated_growth (cap : Nat) : Nat :=
  if cap = 0 then 0
  else
    let num := 3 * toFloat32 cap
    let L := Nat.log2 num + 1
    if L ≤ 24 then num / 2
    else roundNearestEven num (L - 24) * 2 ^ (L - 25)

/-- DynamicArray::calculate_growth:
`max(static_cast<size_type>(capacity_ * GROWTH_FACTOR), max(INITIAL_CAPACITY, new_size))`
with GROWTH_FACTOR = 1.5f and INITIAL_CAPACITY = 16. -/
def calculate_growth (c : DynamicArray α) (new_size : Nat) : Nat :=
  max (truncated_growth c.capacity) (max 16 new_size)

/-- DynamicArray::reallocate: fresh buffer of the new capacity, every live
element moved across, old buffer released.  The live elements are
unchanged. -/
def reallocate (c : DynamicArray α) (new_capacity : Nat) : DynamicArray α :=
  { c with capacity := new_capacity }

/-- DynamicArray::push_back: grows via calculate_growth(size_ + 1) when
`size_ == capacity_`, then constructs at `data_ + size_`. -/
def push_back (c : DynamicArray α) (v : α) : DynamicArray α :=
  let c := if c.data.length = c.capacity
           then c.reallocate (c.calculate_growth (c.data.length + 1))
           else c
  { c with data := c.data ++ [v] }

/-- DynamicArray::pop_back.  The entire body is
`if (size_ > 0) { --size_; destroy(data_ + size_); }` - when the container
is empty it falls through and returns normally; no error is raised.  The
Except result type makes the (absent) failure path statable. -/
def pop_back (c : DynamicArray α) : Except DAErr (DynamicArray α) :=
  if 0 < c.data.length then Except.ok { c with data := c.data.dropLast }
  else Except.ok c

end DynamicArray

/-- A doubly-linked node as the merge/relink code sees it: its identity (the
address), its payload, and its `prev` pointer.  A chain `List (DNode α)`
lists the nodes in `next`-order, so the `next` pointers are the adjacency of
the list; `prev` is an explicit mutable field. -/
structure DNode (α : Type) where
  id : Nat
  data : α
  prev : Option Nat
deriving DecidableEq

namespace SinglyLinkedList

/-- The relinking loop of SinglyLinkedList::reverse:
`while (current) { next = current->next; current->next = prev; prev = current; current = next; }`
accumulating the already-relinked front in `acc`; the final head is the
accumulator. -/
def reverseLoop (acc : List α) : List α → List α
  | [] => acc
  | x :: xs => reverseLoop (x :: acc) xs

/-- SinglyLinkedList::reverse: early-returns when `size_ <= 1`, otherwise
runs the relinking loop (head and tail swap falls out of the new chain
order). -/
def reverse (l : List α) : List α :=
  if l.length ≤ 1 then l else reverseLoop [] l

/-- The forward-link merge loop shared by both lists
(DoublyLinkedList::merge_sorted_lists, whose `next`-link logic the spec says
is reused from the singly-linked algorithm): compare heads with
`first->data <= second->data`, take from the first chain on ties, append the
leftover chain when one side runs out. -/
def mergeChain (le : α → α → Bool) : List α → List α → List α
  | [], second => second
  | first, [] => first
  | x :: xs, y :: ys =>
    if le x y then x :: mergeChain le xs (y :: ys)
    else y :: mergeChain le (x :: xs) ys
termination_by xs ys => xs.length + ys.length

/-- Iteration count of the slow/fast split loop
`while (fast && fast->next) { slow = slow->next; fast = fast->next->next; }`
applied to the chain starting at `fast` (each iteration consumes two
nodes). -/
def splitSteps : List α → Nat
  | _ :: _ :: rest => splitSteps rest + 1
  | _ => 0

/-- Upper bound used for the termination of the merge sort. -/
def two_splitSteps_le : ∀ l : List α, 2 * splitSteps l ≤ l.length
  | [] => by simp [splitSteps]
  | [_] => by simp [splitSteps]
  | _ :: _ :: rest => by
      have h := two_splitSteps_le rest
      simp only [splitSteps, List.length_cons]
      omega

/-- Termination bound: the left half of the split is shorter than the
list. -/
def take_split_lt (x y : α) (rest : List α) :
    ((x :: y :: rest).take (splitSteps (y :: rest) + 1)).length < (x :: y :: rest).length := by
  have h := two_splitSteps_le (y :: rest)
  simp only [List.length_cons] at h
  simp only [List.length_take, List.length_cons]
  omega

/-- Termination bound: the right half of the split is shorter than the
list. -/
def drop_split_lt (x y : α) (rest : List α) :
    ((x :: y :: rest).drop (splitSteps (y :: rest) + 1)).length < (x :: y :: rest).length := by
  simp only [List.length_drop, List.length_cons]
  omega

/-- Modelled from the spec: SinglyLinkedList::sort calls a member
merge_sort that is neither declared in SinglyLinkedList.h nor defined under
src/; per the spec it splits by slow/fast midpoint finding, recursively
sorts each half and merges with ties taken from the left chain - which is
exactly the forward-link logic of DoublyLinkedList::merge_sort, translated
here.  `fast` starts at `head->next`; after `s` iterations `slow` is at
index `s` and `slow->next = nullptr` cuts the chain after it, so the halves
are `take (s+1)` and `drop (s+1)`. -/
def merge_sort (le : α → α → Bool) : List α → List α
  | [] => []
  | [x] => [x]
  | x :: y :: rest =>
    mergeChain le
      (merge_sort le ((x :: y :: rest).take (splitSteps (y :: rest) + 1)))
      (merge_sort le ((x :: y :: rest).drop (splitSteps (y :: rest) + 1)))
termination_by l => l.length
decreasing_by
  · exact take_split_lt _ _ _
  · exact drop_split_lt _ _ _

/-- SinglyLinkedList::sort: early-returns when `size_ <= 1`, otherwise
`head_ = merge_sort(head_)` (then walks to the last node to refresh
`tail_`). -/
def sort (le : α → α → Bool) (l : List α) : List α :=
  if l.length ≤ 1 then l else merge_sort le l

end SinglyLinkedList

namespace DoublyLinkedList

/-- The `while (first && second)` loop of
DoublyLinkedList::merge_sorted_lists at node level.  `t` is the running
`tail` pointer (the id of the previously emitted node, `none` at entry).
Every emitted node gets `next->prev = tail`; when one chain runs out the
code appends the remainder and sets only its first node's `prev`
(`first->prev = tail` / `second->prev = tail`), leaving the rest of the
remainder's `prev` fields as they were. -/
def mergeLoop (le : α → α → Bool) : Option Nat → List (DNode α) → List (DNode α) → List (DNode α)
  | _, [], [] => []
  | t, [], y :: ys => { y with prev := t } :: ys
  | t, x :: xs, [] => { x with prev := t } :: xs
  | t, x :: xs, y :: ys =>
    if le x.data y.data then { x with prev := t } :: mergeLoop le (some x.id) xs (y :: ys)
    else { y with prev := t } :: mergeLoop le (some y.id) (x :: xs) ys
termination_by _ xs ys => xs.length + ys.length

/-- DoublyLinkedList::merge_sorted_lists: the early returns
`if (!first) return second; if (!second) return first;` hand back the other
chain untouched, otherwise the merge loop runs with `tail = nullptr`. -/
def merge_sorted_lists (le : α → α → Bool) (first second : List (DNode α)) : List (DNode α) :=
  match first, second with
  | [], _ => second
  | _, [] => first
  | _, _ => mergeLoop le none first second

/-- DoublyLinkedList::merge_sort: identical slow/fast splitting to the
singly-linked version, then merge_sorted_lists. -/
def merge_sort (le : α → α → Bool) : List (DNode α) → List (DNode α)
  | [] => []
  | [x] => [x]
  | x :: y :: rest =>
    merge_sorted_lists le
      (merge_sort le ((x :: y :: rest).take (SinglyLinkedList.splitSteps (y :: rest) + 1)))
      (merge_sort le ((x :: y :: rest).drop (SinglyLinkedList.splitSteps (y :: rest) + 1)))
termination_by l => l.length
decreasing_by
  · have h := SinglyLinkedList.two_splitSteps_le (y :: rest)
    simp only [List.length_cons] at h
    simp only [List.length_take, List.length_cons]
    omega
  · simp only [List.length_drop, List.length_cons]
    omega

/-- The prev-repair walk at the end of DoublyLinkedList::sort:
`while (current->next) { current->next->prev = current; current = current->next; }`
- every node after the head gets `prev` pointing at its predecessor. -/
def fixGo (pid : Nat) : List (DNode α) → List (DNode α)
  | [] => []
  | y :: ys => { y with prev := some pid } :: fixGo y.id ys

/-- DoublyLinkedList::sort: early-returns when `size_ <= 1`, otherwise
`head_ = merge_sort(head_)` followed by the prev-repair walk (which also
leaves `tail_` at the last node of the chain). -/
def sort (le : α → α → Bool) (chain : List (DNode α)) : List (DNode α) :=
  if chain.length ≤ 1 then chain
  else
    match merge_sort le chain with
    | [] => []
    | h :: rest => h :: fixGo h.id rest

/-- The doubly-linked prev invariant as a boolean: the first node's `prev`
is `p` and every later node's `prev` is the id of its predecessor. -/
def prevOk : Option Nat → List (DNode α) → Bool
  | _, [] => true
  | p, x :: xs => x.prev == p && prevOk (some x.id) xs

/-- The relinking loop of DoublyLinkedList::reverse:
`while (current) { temp = current->prev; current->prev = current->next; current->next = temp; current = current->prev; }`
- each node's new `prev` is its old `next` (the id of the following node in
the chain) and the walk accumulates the chain in reversed order (the new
`next` pointers, being the old `prev` pointers, are the reversed adjacency
whenever the input chain satisfies the prev invariant). -/
def reverseLoop (acc : List (DNode α)) : List (DNode α) → List (DNode α)
  | [] => acc
  | x :: xs => reverseLoop ({ x with prev := xs.head?.map (fun nd => nd.id) } :: acc) xs

/-- DoublyLinkedList::reverse: early-returns when `size_ <= 1`, otherwise
runs the swapping loop and swaps head/tail. -/
def reverse (chain : List (DNode α)) : List (DNode α) :=
  if chain.length ≤ 1 then chain else reverseLoop [] chain

/-- Writes the prev field of each node to the id of its successor in the
chain, `k` for the last node: the closed form of what `reverseLoop`
assigns. -/
def setPrevChain (k : Option Nat) : List (DNode α) → List (DNode α)
  | [] => []
  | [x] => [{ x with prev := k }]
  | x :: y :: xs => { x with prev := some y.id } :: setPrevChain k (y :: xs)

/-- A heap node for the pointer-level model of splice: payload plus both
links (`none` is nullptr). -/
structure HNode (α : Type) where
  data : α
  prev : Option Nat
  next : Option Nat
deriving DecidableEq

/-- The heap: node ids are indices into the list. -/
abbrev Heap (α : Type) := List (HNode α)

/-- The head/tail/size triple of one DoublyLinkedList object. -/
structure ListState where
  head : Option Nat
  tail : Option Nat
  size : Nat
deriving DecidableEq

/-- Dereference a node pointer; `none` models both dereferencing nullptr and
a dangling id (undefined behaviour in the source). -/
def deref (h : Heap α) (p : Option Nat) : Option (HNode α) :=
  p.bind (fun i => h.get? i)

/-- Write the `next` field of node `i`. -/
def setNextH (h : Heap α) (i : Nat) (v : Option Nat) : Heap α :=
  match h.get? i with
  | none => h
  | some nd => h.set i { nd with next := v }

/-- Write the `prev` field of node `i`. -/
def setPrevH (h : Heap α) (i : Nat) (v : Option Nat) : Heap α :=
  match h.get? i with
  | none => h
  | some nd => h.set i { nd with prev := v }

/-- The distance loop of splice:
`for (auto it = first; it != last; ++it) ++count;` where operator++ is
`current_ = current_->next` - advancing past a null or dangling iterator is
a crash (`none`). -/
def countRange (h : Heap α) (last : Option Nat) : Option Nat → Nat → Option Nat
  | it, fuel =>
    if it = last then some 0
    else
      match fuel, it with
      | 0, _ => none
      | _, none => none
      | fuel + 1, some i =>
        match h.get? i with
        | none => none
        | some nd => (countRange h last nd.next fuel).map (fun k => k + 1)

/-- DoublyLinkedList::splice(pos, other, first, last), line by line, for two
distinct lists `a` (this) and `b` (other).  Returns `none` when the source
dereferences a null or dangling pointer.  Note the source reads
`last.current_->prev` before its `if (last.current_)` guard. -/
def splice (h : Heap α) (a b : ListState) (pos first last : Option Nat) :
    Option (Heap α × ListState × ListState) :=
  if first = last then some (h, a, b)
  else
    match countRange h last first (h.length + 1) with
    | none => none
    | some count =>
      match first with
      | none => none
      | some f =>
        match h.get? f with
        | none => none
        | some firstNode =>
          let before_first := firstNode.prev
          match deref h last with
          | none => none
          | some lastNode =>
            let before_last := lastNode.prev
            let h1 := match before_first with
              | some bf => setNextH h bf last
              | none => h
            let b1 := match before_first with
              | some _ => b
              | none => { b with head := last }
            let h2 := match last with
              | some l => setPrevH h1 l before_first
              | none => h1
            match pos with
            | some ip =>
              match h2.get? ip with
              | none => none
              | some posNode =>
                let before_pos := posNode.prev
                let h3 := match before_pos with
                  | some bp => setNextH h2 bp (some f)
                  | none => h2
                let a1 := match before_pos with
                  | some _ => a
                  | none => { a with head := some f }
                let h4 := setPrevH h3 f before_pos
                match before_last with
                | none => none
                | some bl =>
                  let h5 := setNextH h4 bl (some ip)
                  let h6 := setPrevH h5 ip (some bl)
                  some (h6, { a1 with size := a1.size + count },
                            { b1 with size := b1.size - count })
            | none =>
              match a.tail with
              | some t =>
                let h3 := setNextH h2 t (some f)
                let h4 := setPrevH h3 f (some t)
                match before_last with
                | none => none
                | some bl =>
                  let h5 := setNextH h4 bl none
                  some (h5, { a with tail := some bl, size := a.size + count },
                            { b1 with size := b1.size - count })
              | none =>
                let h3 := setPrevH h2 f none
                match before_last with
                | none => none
                | some bl =>
                  let h4 := setNextH h3 bl none
                  some (h4, { a with head := some f, tail := some bl, size := a.size + count },
                            { b1 with size := b1.size - count })

end DoublyLinkedList

/-! ## Theorems -/

namespace CircularArray

/-- Truncated remainder negates with its dividend. -/
theorem tmod_neg_left (a b : Int) : Int.tmod (-a) b = -(Int.tmod a b) := by
  simp only [Int.tmod_def, Int.neg_tdiv]
  ring

/-- Bounds of the normalized rotation amount. -/
theorem rotHelper_bounds (n : Int) {size : Nat} (hs : 0 < size) :
    0 ≤ rotHelper n size ∧ rotHelper n size < (size : Int) := by
  have hpos : (0 : Int) < (size : Int) := by exact_mod_cast hs
  have hlt := Int.tmod_lt_of_pos n hpos
  have hneg : -(size : Int) < Int.tmod n (size : Int) := by
    rcases le_or_lt 0 n with hn | hn
    · have := Int.tmod_nonneg (size : Int) hn
      omega
    · have h1 : Int.tmod (-(-n)) (size : Int) = -(Int.tmod (-n) (size : Int)) :=
        tmod_neg_left (-n) (size : Int)
      have h2 : 0 ≤ Int.tmod (-n) (size : Int) := Int.tmod_nonneg (size : Int) (by omega)
      have h3 := Int.tmod_lt_of_pos (-n) hpos
      simp only [neg_neg] at h1
      omega
  constructor
  · simp only [rotHelper]
    split <;> omega
  · simp only [rotHelper]
    split <;> omega

/-- normalize_index on a small nonnegative argument is plain remainder. -/
theorem normalize_index_natCast (cap m : Nat) (h : m < 2 ^ 64) :
    normalize_index cap (m : Nat) = m % cap := by
  simp only [normalize_index]
  rw [if_neg (by omega)]
  rw [Int.emod_eq_of_lt (by omega) (by omega)]
  simp

/-- normalize_index on head minus one under well-formed bounds. -/
theorem normalize_index_sub_one (cap hd : Nat) (hh : hd < cap) (hcap : cap < 2 ^ 64) :
    normalize_index cap ((hd : Int) - 1) = (hd + cap - 1) % cap := by
  rcases Nat.eq_zero_or_pos hd with h0 | h0
  · subst h0
    simp only [normalize_index, Nat.cast_zero, zero_sub]
    rw [if_pos (by omega)]
    have harg : (-1 : Int) + (cap : Int) = ((cap - 1 : Nat) : Int) := by omega
    rw [harg, Int.emod_eq_of_lt (by omega) (by omega)]
    simp only [Int.toNat_natCast]
    congr 1
    omega
  · have harg : (hd : Int) - 1 = ((hd - 1 : Nat) : Int) := by omega
    rw [harg, normalize_index_natCast cap (hd - 1) (by omega)]
    have h1 : hd + cap - 1 = (hd - 1) + cap := by omega
    rw [h1, Nat.add_mod_right]

/-- The capacity constructor yields a well-formed state. -/
theorem wf_new (α : Type) (cap : Nat) (h : cap < 2 ^ 63) : Wf (new α cap) := by
  refine ⟨by simp [new], by simp [new], h, ?_, by simp [new]⟩
  rcases Nat.eq_zero_or_pos cap with h0 | h0
  · exact Or.inr h0
  · exact Or.inl (by simpa [new] using h0)

/-- push_back preserves well-formedness. -/
theorem wf_push_back {c c2 : CircularArray α} {v : α} (hw : Wf c)
    (h : c.push_back v = Except.ok c2) : Wf c2 := by
  obtain ⟨hbuf, hsz, hcap, hhd, htl⟩ := hw
  unfold push_back at h
  split at h
  · exact absurd h (by simp)
  · rename_i hfull
    have hlt : c.size < c.capacity := by
      simp only [full, beq_iff_eq] at hfull
      omega
    have hcpos : 0 < c.capacity := by omega
    have htlt : c.tail < c.capacity := htl ▸ Nat.mod_lt _ hcpos
    injection h with h
    subst h
    have hnorm : normalize_index c.capacity ((c.tail : Int) + 1) = (c.tail + 1) % c.capacity := by
      have harg : (c.tail : Int) + 1 = ((c.tail + 1 : Nat) : Int) := by push_cast; ring
      rw [harg, normalize_index_natCast _ _ (by omega)]
    refine ⟨by simpa using hbuf, by simpa using hlt, hcap, by simpa using hhd, ?_⟩
    show normalize_index c.capacity ((c.tail : Int) + 1) = (c.head + (c.size + 1)) % c.capacity
    rw [hnorm, htl, Nat.mod_add_mod, Nat.add_assoc]

/-- push_front preserves well-formedness. -/
theorem wf_push_front {c c2 : CircularArray α} {v : α} (hw : Wf c)
    (h : c.push_front v = Except.ok c2) : Wf c2 := by
  obtain ⟨hbuf, hsz, hcap, hhd, htl⟩ := hw
  unfold push_front at h
  split at h
  · exact absurd h (by simp)
  · rename_i hfull
    have hlt : c.size < c.capacity := by
      simp only [full, beq_iff_eq] at hfull
      omega
    have hcpos : 0 < c.capacity := by omega
    have hhd2 : c.head < c.capacity := by
      rcases hhd with h1 | h1
      · exact h1
      · omega
    injection h with h
    subst h
    have hnorm := normalize_index_sub_one c.capacity c.head hhd2 (by omega)
    refine ⟨by simpa using hbuf, by simpa using hlt, hcap, ?_, ?_⟩
    · simp only [hnorm]
      exact Or.inl (Nat.mod_lt _ hcpos)
    · show c.tail = (normalize_index c.capacity ((c.head : Int) - 1) + (c.size + 1)) % c.capacity
      rw [hnorm, Nat.mod_add_mod]
      have h2 : c.head + c.capacity - 1 + (c.size + 1) = c.head + c.size + c.capacity := by
        omega
      rw [h2, Nat.add_mod_right]
      exact htl

/-- pop_front preserves well-formedness. -/
theorem wf_pop_front {c c2 : CircularArray α} (hw : Wf c)
    (h : c.pop_front = Except.ok c2) : Wf c2 := by
  obtain ⟨hbuf, hsz, hcap, hhd, htl⟩ := hw
  unfold pop_front at h
  split at h
  · exact absurd h (by simp)
  · rename_i hemp
    have hpos : 0 < c.size := by
      simp only [empty, beq_iff_eq] at hemp
      omega
    have hcpos : 0 < c.capacity := by omega
    injection h with h
    subst h
    have hhd2 : c.head < c.capacity := by
      rcases hhd with h1 | h1
      · exact h1
      · omega
    have hnorm : normalize_index c.capacity ((c.head : Int) + 1) = (c.head + 1) % c.capacity := by
      have harg : (c.head : Int) + 1 = ((c.head + 1 : Nat) : Int) := by push_cast; ring
      rw [harg, normalize_index_natCast _ _ (by omega)]
    refine ⟨by simpa using hbuf, by simp; omega, hcap, ?_, ?_⟩
    · simp only [hnorm]
      exact Or.inl (Nat.mod_lt _ hcpos)
    · show c.tail = (normalize_index c.capacity ((c.head : Int) + 1) + (c.size - 1)) % c.capacity
      rw [hnorm, Nat.mod_add_mod, htl]
      congr 1
      omega

/-- pop_back preserves well-formedness. -/
theorem wf_pop_back {c c2 : CircularArray α} (hw : Wf c)
    (h : c.pop_back = Except.ok c2) : Wf c2 := by
  obtain ⟨hbuf, hsz, hcap, hhd, htl⟩ := hw
  unfold pop_back at h
  split at h
  · exact absurd h (by simp)
  · rename_i hemp
    have hpos : 0 < c.size := by
      simp only [empty, beq_iff_eq] at hemp
      omega
    have hcpos : 0 < c.capacity := by omega
    have htlt : c.tail < c.capacity := htl ▸ Nat.mod_lt _ hcpos
    injection h with h
    subst h
    have hnorm := normalize_index_sub_one c.capacity c.tail htlt (by omega)
    refine ⟨by simpa using hbuf, by simp; omega, hcap, by simpa using hhd, ?_⟩
    show normalize_index c.capacity ((c.tail : Int) - 1) = (c.head + (c.size - 1)) % c.capacity
    rw [hnorm, htl]
    have h2 : (c.head + c.size) % c.capacity + c.capacity - 1
        = (c.head + c.size) % c.capacity + (c.capacity - 1) := by
      omega
    rw [h2, Nat.mod_add_mod]
    have h3 : c.head + c.size + (c.capacity - 1) = c.head + (c.size - 1) + c.capacity := by
      omega
    rw [h3, Nat.add_mod_right]

/-- rotate preserves well-formedness; it moves head and tail by the same
normalized amount. -/
theorem wf_rotate {c : CircularArray α} (n : Int) (hw : Wf c) : Wf (c.rotate n) := by
  obtain ⟨hbuf, hsz, hcap, hhd, htl⟩ := hw
  unfold rotate
  split
  · exact ⟨hbuf, hsz, hcap, hhd, htl⟩
  · rename_i hsz0
    have hpos : 0 < c.size := by omega
    have hcpos : 0 < c.capacity := by omega
    have hhd2 : c.head < c.capacity := by
      rcases hhd with h1 | h1
      · exact h1
      · omega
    have htlt : c.tail < c.capacity := htl ▸ Nat.mod_lt _ hcpos
    obtain ⟨hk0, hklt⟩ := rotHelper_bounds n hpos
    have hkN : (rotHelper n c.size).toNat < c.size := by
      omega
    have hnormh : normalize_index c.capacity ((c.head : Int) + rotHelper n c.size)
        = (c.head + (rotHelper n c.size).toNat) % c.capacity := by
      have harg : (c.head : Int) + rotHelper n c.size
          = ((c.head + (rotHelper n c.size).toNat : Nat) : Int) := by
        push_cast
        omega
      rw [harg, normalize_index_natCast _ _ (by omega)]
    have hnormt : normalize_index c.capacity ((c.tail : Int) + rotHelper n c.size)
        = (c.tail + (rotHelper n c.size).toNat) % c.capacity := by
      have harg : (c.tail : Int) + rotHelper n c.size
          = ((c.tail + (rotHelper n c.size).toNat : Nat) : Int) := by
        push_cast
        omega
      rw [harg, normalize_index_natCast _ _ (by omega)]
    refine ⟨hbuf, hsz, hcap, ?_, ?_⟩
    · simp only [hnormh]
      exact Or.inl (Nat.mod_lt _ hcpos)
    · show normalize_index c.capacity ((c.tail : Int) + rotHelper n c.size)
        = (normalize_index c.capacity ((c.head : Int) + rotHelper n c.size) + c.size) % c.capacity
      rw [hnormh, hnormt, htl, Nat.mod_add_mod, Nat.mod_add_mod]
      congr 1
      omega

/-- Every reachable circular array state is well-formed. -/
theorem reachable_wf {c : CircularArray α} (h : Reachable c) : Wf c := by
  induction h with
  | new cap hc => exact wf_new α cap hc
  | push_front _ heq ih => exact wf_push_front ih heq
  | push_back _ heq ih => exact wf_push_back ih heq
  | pop_front _ heq ih => exact wf_pop_front ih heq
  | pop_back _ heq ih => exact wf_pop_back ih heq
  | rotate n _ ih => exact wf_rotate n ih

/-- C2 counterexample: the fill constructor CircularArray(1, 0) produces
tail = 1 (= capacity, stored un-normalized), but
(head + size) mod capacity = (0 + 1) mod 1 = 0, so the claimed invariant
fails immediately after the fill constructor. -/
theorem fill_tail_invariant_cex :
    (fill 1 (0 : Nat)).tail
      ≠ ((fill 1 (0 : Nat)).head + (fill 1 (0 : Nat)).size) % (fill 1 (0 : Nat)).capacity := by
  decide

/-- C2 (amended): the exact invariant tail = (head + size) mod capacity
holds for every state reachable from the capacity constructor through
push/pop/rotate; the fill constructor and the copy constructor satisfy it
only as a congruence (tail is congruent to head + size modulo capacity,
with tail stored as size itself, equal to capacity when the constructed
array is full and nonempty). -/
theorem tail_invariant_amended (α : Type) :
    (∀ c : CircularArray α, Reachable c → c.tail = (c.head + c.size) % c.capacity)
    ∧ (∀ (count : Nat) (v : α),
        (fill count v).tail % (fill count v).capacity
          = ((fill count v).head + (fill count v).size) % (fill count v).capacity)
    ∧ (∀ c : CircularArray α,
        (copyOf c).tail % (copyOf c).capacity
          = ((copyOf c).head + (copyOf c).size) % (copyOf c).capacity) := by
  refine ⟨fun c h => (reachable_wf h).2.2.2.2, fun count v => ?_, fun c => ?_⟩
  · simp [fill]
  · simp [copyOf]

/-- Witness for the amended C2 at concrete states. -/
theorem tail_invariant_amended_witness :
    (new Nat 2).tail = ((new Nat 2).head + (new Nat 2).size) % (new Nat 2).capacity
    ∧ (fill 3 (7 : Nat)).tail % (fill 3 (7 : Nat)).capacity
        = ((fill 3 (7 : Nat)).head + (fill 3 (7 : Nat)).size) % (fill 3 (7 : Nat)).capacity
    ∧ (copyOf (fill 3 (7 : Nat))).tail % (copyOf (fill 3 (7 : Nat))).capacity
        = ((copyOf (fill 3 (7 : Nat))).head + (copyOf (fill 3 (7 : Nat))).size)
            % (copyOf (fill 3 (7 : Nat))).capacity :=
  ⟨(tail_invariant_amended Nat).1 _ (Reachable.new 2 (by norm_num)),
   (tail_invariant_amended Nat).2.1 3 7,
   (tail_invariant_amended Nat).2.2 (fill 3 7)⟩

/-- C7 counterexample: for capacity 3 and offset -5 (more negative than
-capacity), normalize_index adds the capacity once, leaving -2, and the
signed-to-unsigned conversion in the remainder yields
(2^64 - 2) mod 3 = 2, while the mathematical residue -5 mod 3 is 1. -/
theorem normalize_index_cex :
    normalize_index 3 (-5) = 2 ∧ ((-5 : Int) % (3 : Int)).toNat = 1
    ∧ normalize_index 3 (-5) ≠ ((-5 : Int) % (3 : Int)).toNat := by
  decide

/-- C7 (amended): normalize_index agrees with the mathematical residue
i mod capacity exactly for offsets in [-capacity, 2^63), i.e. down to one
wrap below zero; below -capacity the single capacity addition no longer
reaches the representative (as the counterexample shows). -/
theorem normalize_index_amended (cap : Nat) (i : Int) (hcap : 0 < cap)
    (hcap2 : (cap : Int) ≤ 2 ^ 64) (hlow : -(cap : Int) ≤ i) (hhigh : i < 2 ^ 63) :
    normalize_index cap i = (i % (cap : Int)).toNat := by
  rcases le_or_lt 0 i with h0 | h0
  · have harg : i = ((i.toNat : Nat) : Int) := (Int.toNat_of_nonneg h0).symm
    rw [harg, normalize_index_natCast cap i.toNat (by omega)]
    have hmod : ((i.toNat : Nat) : Int) % (cap : Int) = ((i.toNat % cap : Nat) : Int) := by
      push_cast
      ring_nf
    rw [hmod, Int.toNat_natCast]
  · simp only [normalize_index]
    rw [if_pos h0]
    have h1 : 0 ≤ i + (cap : Int) := by omega
    have h2 : i + (cap : Int) < (cap : Int) := by omega
    rw [Int.emod_eq_of_lt h1 (by omega)]
    have h3 : i % (cap : Int) = i + (cap : Int) := by
      have h4 : (i + (cap : Int) * 1) % (cap : Int) = i % (cap : Int) :=
        Int.add_mul_emod_self_left i (cap : Int) 1
      have h5 : (i + (cap : Int)) % (cap : Int) = i + (cap : Int) :=
        Int.emod_eq_of_lt h1 h2
      simp only [mul_one] at h4
      omega
    rw [h3]
    exact Nat.mod_eq_of_lt (by omega)

/-- Witness for the amended C7 at a concrete offset. -/
theorem normalize_index_amended_witness :
    normalize_index 4 (-3) = ((-3 : Int) % (4 : Int)).toNat ∧ normalize_index 4 (-3) = 1 :=
  ⟨normalize_index_amended 4 (-3) (by norm_num) (by norm_num) (by norm_num) (by norm_num),
   by decide⟩

/-- C5: from an empty capacity-4 array, push_back 1..4, pop_front,
push_back 5 wraps around to the logical sequence [2, 3, 4, 5] with
full() true, and one further push_back fails with CapacityExceeded (the
throw happens before any mutation, so the failing call leaves contents,
size, head and tail unchanged). -/
theorem circular_wraparound_trace :
    (((((((new Nat 4).push_back 1).bind (fun c => c.push_back 2)).bind
        (fun c => c.push_back 3)).bind (fun c => c.push_back 4)).bind
        (fun c => c.pop_front)).bind (fun c => c.push_back 5))
      = Except.ok (⟨[some 5, some 2, some 3, some 4], 1, 1, 4, 4⟩ : CircularArray Nat)
    ∧ toSeq (⟨[some 5, some 2, some 3, some 4], 1, 1, 4, 4⟩ : CircularArray Nat)
        = [some 2, some 3, some 4, some 5]
    ∧ atPos (⟨[some 5, some 2, some 3, some 4], 1, 1, 4, 4⟩ : CircularArray Nat) 0
        = Except.ok (some 2)
    ∧ full (⟨[some 5, some 2, some 3, some 4], 1, 1, 4, 4⟩ : CircularArray Nat) = true
    ∧ (⟨[some 5, some 2, some 3, some 4], 1, 1, 4, 4⟩ : CircularArray Nat).push_back 6
        = Except.error CAErr.capacityExceeded := by
  refine ⟨rfl, by decide, rfl, by decide, rfl⟩

/-- C10: in every full, nonempty state reachable through push/pop/rotate,
head == tail, so begin() and end() sit at the same buffer position and the
begin-to-end loop dereferences nothing even though the container holds
capacity elements: begin() == end() does not imply emptiness. -/
theorem begin_eq_end_when_full {α : Type} (c : CircularArray α) (hr : Reachable c)
    (hfull : c.size = c.capacity) (hpos : 0 < c.capacity) :
    beginPosition c = endPosition c ∧ iterTraverse c = [] ∧ 0 < c.size := by
  obtain ⟨hbuf, hsz, hcap, hhd, htl⟩ := reachable_wf hr
  have hhd2 : c.head < c.capacity := by
    rcases hhd with h1 | h1
    · exact h1
    · omega
  have hbe : c.head = c.tail := by
    rw [htl, hfull, Nat.add_mod_right, Nat.mod_eq_of_lt hhd2]
  refine ⟨hbe, ?_, by omega⟩
  simp [iterTraverse, iterLoop, hbe]

/-- Witness for C10: capacity 1 filled by one push_back. -/
theorem begin_eq_end_when_full_witness :
    beginPosition (⟨[some 7], 0, 0, 1, 1⟩ : CircularArray Nat)
      = endPosition (⟨[some 7], 0, 0, 1, 1⟩ : CircularArray Nat)
    ∧ iterTraverse (⟨[some 7], 0, 0, 1, 1⟩ : CircularArray Nat) = []
    ∧ 0 < (⟨[some 7], 0, 0, 1, 1⟩ : CircularArray Nat).size :=
  begin_eq_end_when_full _
    (Reachable.push_back (Reachable.new 1 (by norm_num)) rfl)
    (by decide) (by decide)

/-- C1 counterexample: a capacity-3 array holding the logical sequence
[2, 3] (built by three pushes and one pop).  rotate(1) moves the window
over a slot whose element was destroyed by pop_front: the new logical
sequence is [3, <destroyed>], which is not a rotation of [2, 3] in either
direction, and the element 2 has left the window. -/
theorem rotate_cex :
    ((((new Nat 3).push_back 1).bind (fun c => c.push_back 2)).bind
        (fun c => c.push_back 3)).bind (fun c => c.pop_front)
      = Except.ok (⟨[none, some 2, some 3], 1, 0, 3, 2⟩ : CircularArray Nat)
    ∧ toSeq (⟨[none, some 2, some 3], 1, 0, 3, 2⟩ : CircularArray Nat) = [some 2, some 3]
    ∧ toSeq ((⟨[none, some 2, some 3], 1, 0, 3, 2⟩ : CircularArray Nat).rotate 1)
        = [some 3, none]
    ∧ toSeq ((⟨[none, some 2, some 3], 1, 0, 3, 2⟩ : CircularArray Nat).rotate 1)
        ≠ ([some 2, some 3] : List (Option Nat)).rotate 1
    ∧ some 2 ∉ toSeq ((⟨[none, some 2, some 3], 1, 0, 3, 2⟩ : CircularArray Nat).rotate 1) := by
  refine ⟨rfl, by decide, by decide, by decide, by decide⟩

/-- Entry of the logical sequence under well-formed bounds. -/
theorem toSeq_getElem {α : Type} {c : CircularArray α} (hhd : c.head < c.capacity)
    (hcap : c.capacity < 2 ^ 63) (hsz : c.size ≤ c.capacity)
    (i : Nat) (hi : i < (toSeq c).length) :
    (toSeq c)[i] = c.buffer.getD ((c.head + i) % c.capacity) none := by
  have hi2 : i < c.size := by simpa [toSeq] using hi
  simp only [toSeq, List.getElem_map, List.getElem_range]
  rw [normalize_index_natCast _ _ (by omega)]

/-- C1 (amended): rotate(n) changes only head and tail, and when the array
is full the new logical sequence is the old one rotated LEFT by
(n mod size) positions for positive n (right for negative n); when
0 < size < capacity the shifted window covers destroyed slots, so the
result need not be a rotation of the previous sequence (see the
counterexample). -/
theorem rotate_amended {α : Type} (c : CircularArray α) (n : Int) (hwf : Wf c) :
    ((c.rotate n).buffer = c.buffer ∧ (c.rotate n).size = c.size
      ∧ (c.rotate n).capacity = c.capacity)
    ∧ (c.size = c.capacity → toSeq (c.rotate n) = (toSeq c).rotate (rotAmount n c.size)) := by
  obtain ⟨hbuf, hsz, hcap, hhd, htl⟩ := hwf
  have hstruct : (c.rotate n).buffer = c.buffer ∧ (c.rotate n).size = c.size
      ∧ (c.rotate n).capacity = c.capacity := by
    unfold rotate
    split
    · exact ⟨rfl, rfl, rfl⟩
    · exact ⟨rfl, rfl, rfl⟩
  refine ⟨hstruct, fun hfull => ?_⟩
  rcases Nat.eq_zero_or_pos c.size with hs0 | hspos
  · have hid : c.rotate n = c := by
      unfold rotate
      rw [if_pos hs0]
    have h0 : toSeq c = [] := by simp [toSeq, hs0]
    rw [hid, h0]
    rfl
  · have hcpos : 0 < c.capacity := by omega
    have hhd2 : c.head < c.capacity := by
      rcases hhd with h | h
      · exact h
      · omega
    obtain ⟨hk0, hklt⟩ := rotHelper_bounds n hspos
    have hkN : (rotHelper n c.size).toNat < c.size := by omega
    have hrot : c.rotate n
        = { c with head := normalize_index c.capacity ((c.head : Int) + rotHelper n c.size),
                   tail := normalize_index c.capacity ((c.tail : Int) + rotHelper n c.size) } := by
      unfold rotate
      rw [if_neg (by omega)]
    have hnormh : normalize_index c.capacity ((c.head : Int) + rotHelper n c.size)
        = (c.head + (rotHelper n c.size).toNat) % c.capacity := by
      have harg : (c.head : Int) + rotHelper n c.size
          = ((c.head + (rotHelper n c.size).toNat : Nat) : Int) := by
        push_cast
        omega
      rw [harg, normalize_index_natCast _ _ (by omega)]
    have hklt2 : rotAmount n c.size < c.size := hkN
    apply List.ext_getElem
    · simp [toSeq, hrot, List.length_rotate]
    · intro i h1 h2
      have hi : i < c.size := by
        simpa [toSeq, hrot] using h1
      have hlhs : (toSeq (c.rotate n))[i]
          = c.buffer.getD (((c.head + (rotHelper n c.size).toNat) % c.capacity + i) % c.capacity) none := by
        have hhd3 : (c.rotate n).head < (c.rotate n).capacity := by
          rw [hrot]
          simpa [hnormh] using Nat.mod_lt (c.head + (rotHelper n c.size).toNat) hcpos
        have := toSeq_getElem (c := c.rotate n) hhd3
          (by rw [hstruct.2.2]; exact hcap) (by rw [hstruct.2.1, hstruct.2.2]; exact hsz) i h1
        rw [this]
        rw [hrot]
        simp [hnormh]
      have hrhs : ((toSeq c).rotate (rotAmount n c.size))[i]
          = c.buffer.getD ((c.head + (i + rotAmount n c.size) % c.size) % c.capacity) none := by
        rw [List.getElem_rotate]
        have hlen : (toSeq c).length = c.size := by simp [toSeq]
        have hidx : (i + rotAmount n c.size) % (toSeq c).length < (toSeq c).length := by
          rw [hlen]
          exact Nat.mod_lt _ (by omega)
        have := toSeq_getElem (c := c) hhd2 hcap hsz ((i + rotAmount n c.size) % (toSeq c).length) hidx
        rw [this, hlen]
      rw [hlhs, hrhs]
      have hidx_eq : ((c.head + (rotHelper n c.size).toNat) % c.capacity + i) % c.capacity
          = (c.head + (i + rotAmount n c.size) % c.size) % c.capacity := by
        rw [Nat.mod_add_mod]
        rw [hfull] at hklt2 ⊢
        rw [Nat.add_mod_mod]
        congr 1
        simp only [rotAmount]
        omega
      rw [hidx_eq]

/-- Witness for the amended C1: rotating the full array [1, 2, 3] by 1
yields the left rotation [2, 3, 1], with buffer/size/capacity untouched. -/
theorem rotate_amended_witness :
    ((⟨[some 1, some 2, some 3], 0, 0, 3, 3⟩ : CircularArray Nat).rotate 1).buffer
        = [some 1, some 2, some 3]
    ∧ toSeq ((⟨[some 1, some 2, some 3], 0, 0, 3, 3⟩ : CircularArray Nat).rotate 1)
        = (toSeq (⟨[some 1, some 2, some 3], 0, 0, 3, 3⟩ : CircularArray Nat)).rotate
            (rotAmount 1 (⟨[some 1, some 2, some 3], 0, 0, 3, 3⟩ : CircularArray Nat).size) :=
  ⟨(rotate_amended (⟨[some 1, some 2, some 3], 0, 0, 3, 3⟩ : CircularArray Nat) 1
      (by refine ⟨rfl, by norm_num, by norm_num, Or.inl (by norm_num), rfl⟩)).1.1,
   (rotate_amended (⟨[some 1, some 2, some 3], 0, 0, 3, 3⟩ : CircularArray Nat) 1
      (by refine ⟨rfl, by norm_num, by norm_num, Or.inl (by norm_num), rfl⟩)).2 rfl⟩

end CircularArray

namespace DynamicArray

/-- C6 counterexample: pop_back on the empty dynamic array returns
normally with the container unchanged; no Underflow condition reaches the
caller. -/
theorem pop_back_empty_cex :
    pop_back (⟨[], 0⟩ : DynamicArray Nat) = Except.ok (⟨[], 0⟩ : DynamicArray Nat)
    ∧ pop_back (⟨[], 0⟩ : DynamicArray Nat) ≠ Except.error DAErr.underflow := by
  refine ⟨rfl, by simp [pop_back]⟩

/-- C6 (amended): pop_back on an empty dynamic array is a silent no-op -
the guard `if (size_ > 0)` skips the body, the call returns normally and
the container is unchanged. -/
theorem pop_back_empty_amended {α : Type} (c : DynamicArray α) (h : c.data.length = 0) :
    c.pop_back = Except.ok c := by
  unfold pop_back
  rw [if_neg (by omega)]

/-- Witness for the amended C6. -/
theorem pop_back_empty_amended_witness :
    pop_back (⟨[], 0⟩ : DynamicArray Nat) = Except.ok (⟨[], 0⟩ : DynamicArray Nat) :=
  pop_back_empty_amended _ rfl

/-- While the product 3 * capacity fits in 24 bits, the binary32 product
capacity * 1.5f is exact and its truncation is the integer 3 * capacity / 2. -/
theorem truncated_growth_small (cap : Nat) (h : 3 * cap < 2 ^ 24) :
    truncated_growth cap = 3 * cap / 2 := by
  rcases Nat.eq_zero_or_pos cap with h0 | h0
  · subst h0
    decide
  · have h0n : cap ≠ 0 := by omega
    have hf : toFloat32 cap = cap := by
      simp only [toFloat32]
      rw [if_neg h0n, if_pos ?hle]
      case hle =>
        have hlt := (Nat.log2_lt h0n).mpr (show cap < 2 ^ 23 by omega)
        omega
    simp only [truncated_growth]
    rw [if_neg h0n, hf, if_pos ?hle2]
    case hle2 =>
      have h3 : 3 * cap ≠ 0 := by omega
      have hlt := (Nat.log2_lt h3).mpr h
      omega

/-- C8 counterexample: at capacity 8388609 (2^23 + 1, with size equal to
capacity so push_back reallocates) the program computes
trunc(8388609.0f * 1.5f) = 12582914 - the exact product 12582913.5 is a
binary32 tie rounded to the even neighbour 12582914.0f - while the claimed
formula max(capacity * 1.5, max(16, size + 1)) truncates to 12582913. -/
theorem calculate_growth_float_cex :
    calculate_growth (⟨[], 8388609⟩ : DynamicArray Nat) (8388609 + 1) = 12582914
    ∧ max (3 * 8388609 / 2) (max 16 (8388609 + 1)) = 12582913
    ∧ calculate_growth (⟨[], 8388609⟩ : DynamicArray Nat) (8388609 + 1)
        ≠ max (3 * 8388609 / 2) (max 16 (8388609 + 1)) := by
  have hlog23 : Nat.log2 8388609 = 23 := by
    have h1 := (Nat.log2_lt (show (8388609 : Nat) ≠ 0 by norm_num)).mpr
      (show (8388609 : Nat) < 2 ^ 24 by norm_num)
    have h2 : ¬ Nat.log2 8388609 < 23 := by
      intro hc
      have := (Nat.log2_lt (show (8388609 : Nat) ≠ 0 by norm_num)).mp hc
      norm_num at this
    omega
  have hlog25 : Nat.log2 25165827 = 24 := by
    have h1 := (Nat.log2_lt (show (25165827 : Nat) ≠ 0 by norm_num)).mpr
      (show (25165827 : Nat) < 2 ^ 25 by norm_num)
    have h2 : ¬ Nat.log2 25165827 < 24 := by
      intro hc
      have := (Nat.log2_lt (show (25165827 : Nat) ≠ 0 by norm_num)).mp hc
      norm_num at this
    omega
  have hf : toFloat32 8388609 = 8388609 := by
    simp only [toFloat32, hlog23]
    norm_num
  have hg : truncated_growth 8388609 = 12582914 := by
    simp only [truncated_growth, hf]
    rw [show (3 : Nat) * 8388609 = 25165827 from by norm_num, hlog25]
    decide
  have hcalc : calculate_growth (⟨[], 8388609⟩ : DynamicArray Nat) (8388609 + 1)
      = 12582914 := by
    simp only [calculate_growth, hg]
    norm_num
  refine ⟨hcalc, by norm_num, ?_⟩
  rw [hcalc]
  norm_num

/-- C8 (amended): when push_back finds size == capacity it reallocates to
max(trunc((float)capacity * 1.5f), max(16, size + 1)) and appends; for
every capacity with 3 * capacity < 2^24 (about 5.6 million - binary32
rounding first deviates at capacity 5592409) the float product is exact
and the new capacity is the claimed max(capacity * 1.5, max(16, size + 1))
with the product truncated.  When size < capacity the capacity is
untouched.  In both cases the element lands at the back and size grows by
one. -/
theorem push_back_growth {α : Type} (c : DynamicArray α) (v : α) :
    (c.data.length = c.capacity → 3 * c.capacity < 2 ^ 24 →
      ((c.push_back v).capacity = max (3 * c.capacity / 2) (max 16 (c.data.length + 1))
        ∧ (c.push_back v).data = c.data ++ [v]
        ∧ (c.push_back v).data.length = c.data.length + 1))
    ∧ (c.data.length = c.capacity →
      (c.push_back v).capacity = max (truncated_growth c.capacity) (max 16 (c.data.length + 1)))
    ∧ (c.data.length < c.capacity →
      ((c.push_back v).capacity = c.capacity
        ∧ (c.push_back v).data = c.data ++ [v]
        ∧ (c.push_back v).data.length = c.data.length + 1)) := by
  refine ⟨?_, ?_, ?_⟩
  · intro h hbound
    simp [push_back, reallocate, calculate_growth, h, truncated_growth_small c.capacity hbound]
  · intro h
    simp [push_back, reallocate, calculate_growth, h]
  · intro h
    simp [push_back, reallocate, calculate_growth, Nat.ne_of_lt h]

/-- Witness for the amended C8: a full array of capacity 2 grows to
max(3, max(16, 3)) = 16. -/
theorem push_back_growth_witness :
    ((⟨[1, 2], 2⟩ : DynamicArray Nat).push_back 9).capacity = 16
    ∧ ((⟨[1, 2], 2⟩ : DynamicArray Nat).push_back 9).data = [1, 2, 9] := by
  have h := (push_back_growth (⟨[1, 2], 2⟩ : DynamicArray Nat) 9).1 (by decide) (by norm_num)
  refine ⟨by rw [h.1]; decide, by rw [h.2.1]; decide⟩

end DynamicArray

namespace DoublyLinkedList

/-- C3 failing input: A empty, B = [1] (one node, id 0), splice(A.end(), B,
B.begin(), B.end()).  The claim includes last == B.end(); the source
executes `before_last = last.current_->prev` with `last.current_ ==
nullptr` and crashes (model result none) before any relinking, so the
claimed transfer never happens. -/
theorem splice_null_last_crash :
    splice [(⟨1, none, none⟩ : HNode Nat)]
      ⟨none, none, 0⟩ ⟨some 0, some 0, 1⟩ none (some 0) none = none := by
  decide

/-- Sanity check of the splice model on a working input: B = [10, 20]
(ids 0, 1), moving the one-node range [begin, ++begin) into empty A at
A.end() transfers node 0 to A and leaves node 1 as all of B. -/
theorem splice_success_example :
    splice [(⟨10, none, some 1⟩ : HNode Nat), ⟨20, some 0, none⟩]
      ⟨none, none, 0⟩ ⟨some 0, some 1, 2⟩ none (some 0) (some 1)
      = some ([⟨10, none, none⟩, ⟨20, none, none⟩],
              ⟨some 0, some 0, 1⟩, ⟨some 1, some 1, 1⟩) := by
  decide

end DoublyLinkedList

namespace SinglyLinkedList

/-- The relinking loop builds the reversed chain in front of the
accumulator. -/
theorem reverseLoop_reverse (l : List α) : ∀ acc : List α, reverseLoop acc l = l.reverse ++ acc := by
  induction l with
  | nil => intro acc; simp [reverseLoop]
  | cons x xs ih =>
    intro acc
    simp only [reverseLoop, ih (x :: acc), List.reverse_cons, List.append_assoc,
      List.singleton_append]

/-- SinglyLinkedList::reverse computes the list reversal (the early return
for short lists agrees with it). -/
theorem reverse_eq_reverse (l : List α) : reverse l = l.reverse := by
  unfold reverse
  split
  · rename_i h
    match l, h with
    | [], _ => rfl
    | [x], _ => rfl
  · rw [reverseLoop_reverse l [], List.append_nil]

/-- The merge loop emits a permutation of its two inputs. -/
theorem mergeChain_perm (le : α → α → Bool) : ∀ xs ys : List α,
    (mergeChain le xs ys).Perm (xs ++ ys)
  | [], ys => by simp [mergeChain]
  | x :: xs, [] => by simp [mergeChain]
  | x :: xs, y :: ys => by
    rw [mergeChain]
    split
    · exact (mergeChain_perm le xs (y :: ys)).cons x
    · exact ((mergeChain_perm le (x :: xs) ys).cons y).trans List.perm_middle.symm
termination_by xs ys => xs.length + ys.length

/-- The merge loop of two sorted chains is sorted (for a total transitive
comparison). -/
theorem mergeChain_sorted (le : α → α → Bool)
    (htrans : ∀ a b c, le a b = true → le b c = true → le a c = true)
    (htot : ∀ a b, le a b = false → le b a = true) :
    ∀ xs ys : List α, xs.Pairwise (fun a b => le a b = true) →
      ys.Pairwise (fun a b => le a b = true) →
      (mergeChain le xs ys).Pairwise (fun a b => le a b = true)
  | [], ys, _, hys => by simpa [mergeChain] using hys
  | x :: xs, [], hxs, _ => by simpa [mergeChain] using hxs
  | x :: xs, y :: ys, hxs, hys => by
    rw [mergeChain]
    rw [List.pairwise_cons] at hxs hys
    obtain ⟨hx, hxs2⟩ := hxs
    obtain ⟨hy, hys2⟩ := hys
    split
    · rename_i hxy
      rw [List.pairwise_cons]
      refine ⟨fun z hz => ?_, mergeChain_sorted le htrans htot xs (y :: ys) hxs2
        (List.pairwise_cons.mpr ⟨hy, hys2⟩)⟩
      rcases List.mem_append.mp ((mergeChain_perm le xs (y :: ys)).subset hz) with h1 | h1
      · exact hx z h1
      · rcases List.mem_cons.mp h1 with h2 | h2
        · subst h2
          exact hxy
        · exact htrans x y z hxy (hy z h2)
    · rename_i hxy
      have hyx : le y x = true := htot x y (by simpa using hxy)
      rw [List.pairwise_cons]
      refine ⟨fun z hz => ?_, mergeChain_sorted le htrans htot (x :: xs) ys
        (List.pairwise_cons.mpr ⟨hx, hxs2⟩) hys2⟩
      rcases List.mem_append.mp ((mergeChain_perm le (x :: xs) ys).subset hz) with h1 | h1
      · rcases List.mem_cons.mp h1 with h2 | h2
        · subst h2
          exact hyx
        · exact htrans y x z hyx (hx z h2)
      · exact hy z h1
termination_by xs ys => xs.length + ys.length

/-- Stability of the merge loop: for a class of mutually comparable-below
elements (all pairs satisfying p are le-related), filtering the merge of a
sorted left chain with any right chain concatenates the filtered inputs -
on ties the left element is emitted first. -/
theorem mergeChain_filter (le : α → α → Bool)
    (htrans : ∀ a b c, le a b = true → le b c = true → le a c = true)
    (p : α → Bool) (hp : ∀ a b, p a = true → p b = true → le a b = true) :
    ∀ xs ys : List α, xs.Pairwise (fun a b => le a b = true) →
      (mergeChain le xs ys).filter p = xs.filter p ++ ys.filter p
  | [], ys, _ => by simp [mergeChain]
  | x :: xs, [], _ => by simp [mergeChain]
  | x :: xs, y :: ys, hxs => by
    rw [mergeChain]
    rw [List.pairwise_cons] at hxs
    obtain ⟨hx, hxs2⟩ := hxs
    split
    · rename_i hxy
      have ih := mergeChain_filter le htrans p hp xs (y :: ys) hxs2
      by_cases hpx : p x = true
      · simp [List.filter_cons, hpx, ih]
      · simp [List.filter_cons, hpx, ih]
    · rename_i hxy
      have hf : le x y = false := by simpa using hxy
      have ih := mergeChain_filter le htrans p hp (x :: xs) ys
        (List.pairwise_cons.mpr ⟨hx, hxs2⟩)
      by_cases hpy : p y = true
      · have hnone : (x :: xs).filter p = [] := by
          rw [List.filter_eq_nil_iff]
          intro z hz hpz
          rcases List.mem_cons.mp hz with h1 | h1
          · subst h1
            exact absurd (hp z y hpz hpy) (by simp [hf])
          · exact absurd (htrans x z y (hx z h1) (hp z y hpz hpy)) (by simp [hf])
        simp [List.filter_cons, hpy, ih, hnone]
      · simp [List.filter_cons, hpy, ih]
termination_by xs ys => xs.length + ys.length

/-- merge_sort emits a permutation of its input. -/
theorem merge_sort_perm (le : α → α → Bool) : ∀ l : List α, (merge_sort le l).Perm l
  | [] => by simp [merge_sort]
  | [x] => by simp [merge_sort]
  | x :: y :: rest => by
    rw [merge_sort]
    have h1 := merge_sort_perm le ((x :: y :: rest).take (splitSteps (y :: rest) + 1))
    have h2 := merge_sort_perm le ((x :: y :: rest).drop (splitSteps (y :: rest) + 1))
    exact (mergeChain_perm le _ _).trans
      ((h1.append h2).trans (List.Perm.of_eq (List.take_append_drop _ _)))
termination_by l => l.length
decreasing_by
  · exact take_split_lt _ _ _
  · exact drop_split_lt _ _ _

/-- merge_sort output is sorted. -/
theorem merge_sort_sorted (le : α → α → Bool)
    (htrans : ∀ a b c, le a b = true → le b c = true → le a c = true)
    (htot : ∀ a b, le a b = false → le b a = true) :
    ∀ l : List α, (merge_sort le l).Pairwise (fun a b => le a b = true)
  | [] => by simp [merge_sort]
  | [x] => by simp [merge_sort]
  | x :: y :: rest => by
    rw [merge_sort]
    exact mergeChain_sorted le htrans htot _ _
      (merge_sort_sorted le htrans htot ((x :: y :: rest).take (splitSteps (y :: rest) + 1)))
      (merge_sort_sorted le htrans htot ((x :: y :: rest).drop (splitSteps (y :: rest) + 1)))
termination_by l => l.length
decreasing_by
  · exact take_split_lt _ _ _
  · exact drop_split_lt _ _ _

/-- Stability of merge_sort: a class of mutually comparable elements keeps
its original relative order. -/
theorem merge_sort_filter (le : α → α → Bool)
    (htrans : ∀ a b c, le a b = true → le b c = true → le a c = true)
    (htot : ∀ a b, le a b = false → le b a = true)
    (p : α → Bool) (hp : ∀ a b, p a = true → p b = true → le a b = true) :
    ∀ l : List α, (merge_sort le l).filter p = l.filter p
  | [] => by simp [merge_sort]
  | [x] => by simp [merge_sort]
  | x :: y :: rest => by
    rw [merge_sort]
    rw [mergeChain_filter le htrans p hp _ _
      (merge_sort_sorted le htrans htot ((x :: y :: rest).take (splitSteps (y :: rest) + 1)))]
    rw [merge_sort_filter le htrans htot p hp ((x :: y :: rest).take (splitSteps (y :: rest) + 1))]
    rw [merge_sort_filter le htrans htot p hp ((x :: y :: rest).drop (splitSteps (y :: rest) + 1))]
    rw [← List.filter_append, List.take_append_drop]
termination_by l => l.length
decreasing_by
  · exact take_split_lt _ _ _
  · exact drop_split_lt _ _ _

/-- sort() (guard plus merge_sort) emits a permutation of the input. -/
theorem sort_perm (le : α → α → Bool) (l : List α) : (sort le l).Perm l := by
  unfold sort
  split
  · exact List.Perm.refl l
  · exact merge_sort_perm le l

/-- sort() output is sorted. -/
theorem sort_sorted (le : α → α → Bool)
    (htrans : ∀ a b c, le a b = true → le b c = true → le a c = true)
    (htot : ∀ a b, le a b = false → le b a = true)
    (l : List α) : (sort le l).Pairwise (fun a b => le a b = true) := by
  unfold sort
  split
  · rename_i h
    match l, h with
    | [], _ => simp
    | [x], _ => simp
  · exact merge_sort_sorted le htrans htot l

/-- sort() is stable. -/
theorem sort_filter (le : α → α → Bool)
    (htrans : ∀ a b c, le a b = true → le b c = true → le a c = true)
    (htot : ∀ a b, le a b = false → le b a = true)
    (p : α → Bool) (hp : ∀ a b, p a = true → p b = true → le a b = true)
    (l : List α) : (sort le l).filter p = l.filter p := by
  unfold sort
  split
  · rfl
  · exact merge_sort_filter le htrans htot p hp l

end SinglyLinkedList

namespace DoublyLinkedList

/-- The doubly-linked relinking loop builds the reversed chain with every
node's prev field rewritten to its old successor. -/
theorem reverseLoop_setPrevChain : ∀ (l acc : List (DNode α)),
    reverseLoop acc l = (setPrevChain none l).reverse ++ acc
  | [], acc => by simp [reverseLoop, setPrevChain]
  | [x], acc => by simp [reverseLoop, setPrevChain]
  | x :: y :: ys, acc => by
    have ih := reverseLoop_setPrevChain (y :: ys) ({ x with prev := some y.id } :: acc)
    simp only [reverseLoop, List.head?_cons, Option.map_some'] at ih ⊢
    rw [ih]
    simp [setPrevChain, List.append_assoc]

/-- setPrevChain distributes over appending a final node. -/
theorem setPrevChain_append (k : Option Nat) (y : DNode α) : ∀ l : List (DNode α),
    setPrevChain k (l ++ [y]) = setPrevChain (some y.id) l ++ [{ y with prev := k }]
  | [] => by simp [setPrevChain]
  | [x] => by simp [setPrevChain]
  | x :: x2 :: xs => by
    have ih := setPrevChain_append k y (x2 :: xs)
    simp only [List.cons_append, setPrevChain, List.append_eq] at ih ⊢
    rw [ih]

/-- setPrevChain only rewrites prev fields. -/
theorem setPrevChain_map_data : ∀ (k : Option Nat) (l : List (DNode α)),
    (setPrevChain k l).map (fun nd => nd.data) = l.map (fun nd => nd.data)
  | _, [] => by simp [setPrevChain]
  | _, [x] => by simp [setPrevChain]
  | k, x :: x2 :: xs => by
    have ih := setPrevChain_map_data k (x2 :: xs)
    simp only [setPrevChain, List.map_cons] at ih ⊢
    exact congrArg _ ih

/-- setPrevChain preserves length. -/
theorem setPrevChain_length : ∀ (k : Option Nat) (l : List (DNode α)),
    (setPrevChain k l).length = l.length
  | _, [] => by simp [setPrevChain]
  | _, [x] => by simp [setPrevChain]
  | k, x :: x2 :: xs => by
    have ih := setPrevChain_length k (x2 :: xs)
    simp only [setPrevChain, List.length_cons] at ih ⊢
    omega

/-- Undoing one reversal: applying setPrevChain to the reversed rewritten
chain restores the original prev fields, provided the original chain
satisfied the prev invariant. -/
theorem setPrevChain_reverse : ∀ (l : List (DNode α)) (p : Option Nat),
    prevOk p l = true → setPrevChain p ((setPrevChain none l).reverse) = l.reverse
  | [], p, _ => by simp [setPrevChain]
  | [a], p, h => by
    obtain ⟨i0, d0, p0⟩ := a
    simp only [prevOk, Bool.and_true, beq_iff_eq] at h
    simp [setPrevChain, h]
  | a :: b :: bs, p, h => by
    rw [prevOk, Bool.and_eq_true, beq_iff_eq] at h
    obtain ⟨ha, hrest⟩ := h
    have ih := setPrevChain_reverse (b :: bs) (some a.id) hrest
    have hstep : setPrevChain none (a :: b :: bs)
        = { a with prev := some b.id } :: setPrevChain none (b :: bs) := rfl
    rw [hstep, List.reverse_cons, setPrevChain_append p ({ a with prev := some b.id })]
    have hid : ({ a with prev := some b.id } : DNode α).id = a.id := rfl
    rw [hid, ih]
    have hnode : ({ ({ a with prev := some b.id } : DNode α) with prev := p } : DNode α) = a := by
      cases a with
      | mk i0 d0 p0 =>
        cases ha
        rfl
    rw [hnode]
    simp

/-- DoublyLinkedList::reverse reverses the payload sequence. -/
theorem reverse_map_data (chain : List (DNode α)) :
    (reverse chain).map (fun nd => nd.data) = (chain.map (fun nd => nd.data)).reverse := by
  unfold reverse
  split
  · rename_i h
    match chain, h with
    | [], _ => rfl
    | [x], _ => rfl
  · rw [reverseLoop_setPrevChain chain [], List.append_nil, List.map_reverse, setPrevChain_map_data]

/-- DoublyLinkedList::reverse is an involution on chains satisfying the
prev invariant. -/
theorem reverse_reverse (chain : List (DNode α)) (h : prevOk none chain = true) :
    reverse (reverse chain) = chain := by
  by_cases hlen : chain.length ≤ 1
  · have h1 : reverse chain = chain := by
      unfold reverse
      rw [if_pos hlen]
    rw [h1, h1]
  · have h1 : reverse chain = (setPrevChain none chain).reverse := by
      unfold reverse
      rw [if_neg hlen, reverseLoop_setPrevChain chain [], List.append_nil]
    have hlen2 : (reverse chain).length = chain.length := by
      rw [h1, List.length_reverse, setPrevChain_length]
    have h2 : reverse (reverse chain) = (setPrevChain none (reverse chain)).reverse := by
      conv_lhs => rw [reverse]
      rw [if_neg (by omega), reverseLoop_setPrevChain (reverse chain) [], List.append_nil]
    rw [h2, h1, setPrevChain_reverse chain none h, List.reverse_reverse]

/-- The node-level merge loop projects to the forward-link merge on
payloads. -/
theorem mergeLoop_map (le : α → α → Bool) : ∀ (t : Option Nat) (xs ys : List (DNode α)),
    (mergeLoop le t xs ys).map (fun nd => nd.data)
      = SinglyLinkedList.mergeChain le (xs.map (fun nd => nd.data)) (ys.map (fun nd => nd.data))
  | _, [], [] => by simp [mergeLoop, SinglyLinkedList.mergeChain]
  | t, [], y :: ys => by simp [mergeLoop, SinglyLinkedList.mergeChain]
  | t, x :: xs, [] => by simp [mergeLoop, SinglyLinkedList.mergeChain]
  | t, x :: xs, y :: ys => by
    rw [mergeLoop]
    simp only [List.map_cons, SinglyLinkedList.mergeChain]
    split
    · rename_i hxy
      simp only [List.map_cons]
      rw [mergeLoop_map le (some x.id) xs (y :: ys)]
      simp only [List.map_cons]
    · rename_i hxy
      simp only [List.map_cons]
      rw [mergeLoop_map le (some y.id) (x :: xs) ys]
      simp only [List.map_cons]
termination_by _ xs ys => xs.length + ys.length

/-- merge_sorted_lists projects to the forward-link merge on payloads. -/
theorem merge_sorted_lists_map (le : α → α → Bool) (xs ys : List (DNode α)) :
    (merge_sorted_lists le xs ys).map (fun nd => nd.data)
      = SinglyLinkedList.mergeChain le (xs.map (fun nd => nd.data))
          (ys.map (fun nd => nd.data)) := by
  match xs, ys with
  | [], ys => simp [merge_sorted_lists, SinglyLinkedList.mergeChain]
  | x :: xs, [] => simp [merge_sorted_lists, SinglyLinkedList.mergeChain]
  | x :: xs, y :: ys => exact mergeLoop_map le none (x :: xs) (y :: ys)

/-- The split iteration count only depends on the shape of the chain. -/
theorem splitSteps_map {β : Type} (f : α → β) : ∀ l : List α,
    SinglyLinkedList.splitSteps (l.map f) = SinglyLinkedList.splitSteps l
  | [] => rfl
  | [_] => rfl
  | _ :: _ :: rest => by
    simp only [List.map_cons, SinglyLinkedList.splitSteps]
    rw [splitSteps_map f rest]

/-- The node-level merge sort projects to the payload-level merge sort. -/
theorem merge_sort_map (le : α → α → Bool) : ∀ chain : List (DNode α),
    (merge_sort le chain).map (fun nd => nd.data)
      = SinglyLinkedList.merge_sort le (chain.map (fun nd => nd.data))
  | [] => by simp [merge_sort, SinglyLinkedList.merge_sort]
  | [x] => by simp [merge_sort, SinglyLinkedList.merge_sort]
  | x :: y :: rest => by
    rw [merge_sort]
    simp only [List.map_cons, SinglyLinkedList.merge_sort]
    rw [merge_sorted_lists_map le]
    rw [merge_sort_map le ((x :: y :: rest).take (SinglyLinkedList.splitSteps (y :: rest) + 1))]
    rw [merge_sort_map le ((x :: y :: rest).drop (SinglyLinkedList.splitSteps (y :: rest) + 1))]
    rw [List.map_take, List.map_drop]
    have hsteps : SinglyLinkedList.splitSteps (y.data :: rest.map (fun nd => nd.data))
        = SinglyLinkedList.splitSteps (y :: rest) := by
      have h := splitSteps_map (fun nd : DNode α => nd.data) (y :: rest)
      simpa using h
    simp only [List.map_cons, hsteps]
termination_by chain => chain.length
decreasing_by
  · exact SinglyLinkedList.take_split_lt _ _ _
  · exact SinglyLinkedList.drop_split_lt _ _ _

/-- The node-level merge sort preserves the chain length. -/
theorem merge_sort_length (le : α → α → Bool) (chain : List (DNode α)) :
    (merge_sort le chain).length = chain.length := by
  have h1 := congrArg List.length (merge_sort_map le chain)
  simp only [List.length_map] at h1
  rw [h1, (SinglyLinkedList.merge_sort_perm le _).length_eq, List.length_map]

/-- When both inputs are nonempty, the merged chain starts with a node
whose prev was written to nullptr (tail is null on the first iteration of
the merge loop). -/
theorem merge_sorted_lists_head_prev (le : α → α → Bool) (x y : DNode α)
    (xs ys : List (DNode α)) :
    ∃ h t, merge_sorted_lists le (x :: xs) (y :: ys) = h :: t ∧ h.prev = none := by
  have heq : merge_sorted_lists le (x :: xs) (y :: ys) = mergeLoop le none (x :: xs) (y :: ys) :=
    rfl
  rw [heq, mergeLoop]
  split
  · exact ⟨_, _, rfl, rfl⟩
  · exact ⟨_, _, rfl, rfl⟩

/-- For a chain of at least two nodes the sorted chain starts with a node
whose prev is nullptr. -/
theorem merge_sort_head_prev (le : α → α → Bool) (chain : List (DNode α))
    (hlen : 2 ≤ chain.length) :
    ∃ h t, merge_sort le chain = h :: t ∧ h.prev = none := by
  match chain, hlen with
  | x :: y :: rest, _ =>
    rw [merge_sort]
    have hbound := SinglyLinkedList.two_splitSteps_le (y :: rest)
    have hL : merge_sort le ((x :: y :: rest).take
        (SinglyLinkedList.splitSteps (y :: rest) + 1)) ≠ [] := by
      intro hnil
      have hlen2 := merge_sort_length le ((x :: y :: rest).take
        (SinglyLinkedList.splitSteps (y :: rest) + 1))
      rw [hnil] at hlen2
      simp only [List.length_nil, List.length_take, List.length_cons] at hlen2
      omega
    have hR : merge_sort le ((x :: y :: rest).drop
        (SinglyLinkedList.splitSteps (y :: rest) + 1)) ≠ [] := by
      intro hnil
      have hlen2 := merge_sort_length le ((x :: y :: rest).drop
        (SinglyLinkedList.splitSteps (y :: rest) + 1))
      rw [hnil] at hlen2
      simp only [List.length_nil, List.length_drop, List.length_cons] at hlen2
      simp only [List.length_cons] at hbound
      omega
    obtain ⟨h1, t1, hL2⟩ := List.exists_cons_of_ne_nil hL
    obtain ⟨h2, t2, hR2⟩ := List.exists_cons_of_ne_nil hR
    rw [hL2, hR2]
    exact merge_sorted_lists_head_prev le h1 h2 t1 t2

/-- The prev-repair walk establishes the prev invariant for the rest of
the chain. -/
theorem prevOk_fixGo : ∀ (pid : Nat) (l : List (DNode α)),
    prevOk (some pid) (fixGo pid l) = true
  | _, [] => rfl
  | pid, y :: ys => by
    rw [fixGo, prevOk]
    simp only [beq_self_eq_true, Bool.true_and]
    exact prevOk_fixGo y.id ys

/-- The prev-repair walk does not change payloads. -/
theorem fixGo_map_data : ∀ (pid : Nat) (l : List (DNode α)),
    (fixGo pid l).map (fun nd => nd.data) = l.map (fun nd => nd.data)
  | _, [] => rfl
  | pid, y :: ys => by
    rw [fixGo]
    simp only [List.map_cons]
    rw [fixGo_map_data y.id ys]

/-- DoublyLinkedList::sort re-establishes the prev invariant: after the
top-level merge the head's prev is nullptr and the repair walk rewrites
every other node's prev to its predecessor. -/
theorem sort_prevOk (le : α → α → Bool) (chain : List (DNode α))
    (h : prevOk none chain = true) : prevOk none (sort le chain) = true := by
  unfold sort
  split
  · exact h
  · rename_i hlen
    obtain ⟨h0, t0, heq, hprev⟩ := merge_sort_head_prev le chain (by omega)
    rw [heq]
    rw [prevOk]
    simp only [hprev, beq_self_eq_true, Bool.true_and]
    exact prevOk_fixGo h0.id t0

/-- DoublyLinkedList::sort projects to the payload-level sort(). -/
theorem sort_map_data (le : α → α → Bool) (chain : List (DNode α)) :
    (sort le chain).map (fun nd => nd.data)
      = SinglyLinkedList.sort le (chain.map (fun nd => nd.data)) := by
  unfold sort SinglyLinkedList.sort
  by_cases hlen : chain.length ≤ 1
  · rw [if_pos hlen, if_pos (by simpa using hlen)]
  · rw [if_neg hlen, if_neg (by simpa using hlen)]
    cases heq : merge_sort le chain with
    | nil =>
      have h1 := merge_sort_map le chain
      rw [heq] at h1
      exact h1
    | cons h0 t0 =>
      have h1 := merge_sort_map le chain
      rw [heq] at h1
      simp only [List.map_cons] at h1
      simp only [List.map_cons, fixGo_map_data]
      exact h1

end DoublyLinkedList

/-- C9: reverse() is an involution on both lists, a no-op on empty and
singleton lists, and one application reverses the traversal order exactly
(for the singly linked list the new head is the old last element and the
new last is the old head; the doubly linked statement is over chains
satisfying the prev invariant, on which the loop's pointer walk is the
chain order). -/
theorem reverse_correct (α : Type) :
    (∀ l : List α,
        SinglyLinkedList.reverse (SinglyLinkedList.reverse l) = l
        ∧ (l.length ≤ 1 → SinglyLinkedList.reverse l = l)
        ∧ SinglyLinkedList.reverse l = l.reverse
        ∧ (SinglyLinkedList.reverse l).head? = l.getLast?
        ∧ (SinglyLinkedList.reverse l).getLast? = l.head?)
    ∧ (∀ chain : List (DNode α), DoublyLinkedList.prevOk none chain = true →
        (DoublyLinkedList.reverse (DoublyLinkedList.reverse chain) = chain
          ∧ (chain.length ≤ 1 → DoublyLinkedList.reverse chain = chain)
          ∧ (DoublyLinkedList.reverse chain).map (fun nd => nd.data)
              = (chain.map (fun nd => nd.data)).reverse)) := by
  constructor
  · intro l
    refine ⟨?_, ?_, SinglyLinkedList.reverse_eq_reverse l, ?_, ?_⟩
    · rw [SinglyLinkedList.reverse_eq_reverse, SinglyLinkedList.reverse_eq_reverse,
        List.reverse_reverse]
    · intro h
      unfold SinglyLinkedList.reverse
      rw [if_pos h]
    · rw [SinglyLinkedList.reverse_eq_reverse, List.head?_reverse]
    · rw [SinglyLinkedList.reverse_eq_reverse, List.getLast?_reverse]
  · intro chain h
    refine ⟨DoublyLinkedList.reverse_reverse chain h, ?_,
      DoublyLinkedList.reverse_map_data chain⟩
    intro hlen
    unfold DoublyLinkedList.reverse
    rw [if_pos hlen]

/-- Witness for C9 at concrete lists. -/
theorem reverse_correct_witness :
    SinglyLinkedList.reverse (SinglyLinkedList.reverse [1, 2, 3]) = [1, 2, 3]
    ∧ SinglyLinkedList.reverse [1, 2, 3] = [3, 2, 1]
    ∧ DoublyLinkedList.reverse (DoublyLinkedList.reverse
        [(⟨0, 5, none⟩ : DNode Nat), ⟨1, 3, some 0⟩, ⟨2, 8, some 1⟩])
        = [⟨0, 5, none⟩, ⟨1, 3, some 0⟩, ⟨2, 8, some 1⟩] := by
  have h1 := (reverse_correct Nat).1 [1, 2, 3]
  have h2 := (reverse_correct Nat).2
    [(⟨0, 5, none⟩ : DNode Nat), ⟨1, 3, some 0⟩, ⟨2, 8, some 1⟩] (by decide)
  exact ⟨h1.1, by rw [h1.2.2.1]; decide, h2.1⟩

/-- C4: for every total preorder le (transitive, total), sort() on both
lists produces a non-decreasing permutation of its input and is stable
(every class of mutually comparable elements, e.g. the elements sharing a
key, keeps its original relative order - on ties the merge takes from the
left chain first).  For the doubly linked list the sorted chain projects
to the same payload-level sort and satisfies the prev invariant (every
node's prev is its predecessor, head's prev is nullptr), which with the
chain representation also places tail at the last node. -/
theorem sort_correct (α : Type) (le : α → α → Bool)
    (htrans : ∀ a b c, le a b = true → le b c = true → le a c = true)
    (htot : ∀ a b, le a b = false → le b a = true) :
    (∀ l : List α,
        (SinglyLinkedList.sort le l).Perm l
        ∧ (SinglyLinkedList.sort le l).Pairwise (fun a b => le a b = true)
        ∧ (∀ p : α → Bool, (∀ a b, p a = true → p b = true → le a b = true) →
            (SinglyLinkedList.sort le l).filter p = l.filter p))
    ∧ (∀ chain : List (DNode α), DoublyLinkedList.prevOk none chain = true →
        ((DoublyLinkedList.sort le chain).map (fun nd => nd.data)
            = SinglyLinkedList.sort le (chain.map (fun nd => nd.data))
          ∧ DoublyLinkedList.prevOk none (DoublyLinkedList.sort le chain) = true)) := by
  refine ⟨fun l => ⟨SinglyLinkedList.sort_perm le l,
      SinglyLinkedList.sort_sorted le htrans htot l,
      fun p hp => SinglyLinkedList.sort_filter le htrans htot p hp l⟩,
    fun chain h => ⟨DoublyLinkedList.sort_map_data le chain,
      DoublyLinkedList.sort_prevOk le chain h⟩⟩

/-- Witness for C4: sorting pairs by first component keeps the equal-keyed
pair (1, 10), (1, 20) in original order, and the sorted doubly-linked
chain satisfies the prev invariant. -/
theorem sort_correct_witness :
    (SinglyLinkedList.sort (fun a b : Nat × Nat => decide (a.1 ≤ b.1))
        [(2, 0), (1, 10), (1, 20)]).Perm [(2, 0), (1, 10), (1, 20)]
    ∧ (SinglyLinkedList.sort (fun a b : Nat × Nat => decide (a.1 ≤ b.1))
        [(2, 0), (1, 10), (1, 20)]).filter (fun a => a.1 == 1)
        = [(1, 10), (1, 20)]
    ∧ DoublyLinkedList.prevOk none (DoublyLinkedList.sort
        (fun a b : Nat × Nat => decide (a.1 ≤ b.1))
        [⟨0, (2, 0), none⟩, ⟨1, (1, 10), some 0⟩, ⟨2, (1, 20), some 1⟩]) = true := by
  have h := sort_correct (Nat × Nat) (fun a b => decide (a.1 ≤ b.1))
    (fun a b c h1 h2 => by
      simp only [decide_eq_true_eq] at h1 h2 ⊢
      omega)
    (fun a b hf => by
      simp only [decide_eq_false_iff_not] at hf
      simp only [decide_eq_true_eq]
      omega)
  refine ⟨(h.1 [(2, 0), (1, 10), (1, 20)]).1, ?_, (h.2 _ (by decide)).2⟩
  have h2 := (h.1 [(2, 0), (1, 10), (1, 20)]).2.2 (fun a => a.1 == 1)
    (fun a b ha hb => by
      simp only [beq_iff_eq] at ha hb
      simp only [decide_eq_true_eq]
      omega)
  rw [h2]
  decide

end DSA
